import Mathlib

/-!
Shallow embedding of the MPF-Nixie Arduino firmware (src/nixie.ino).

Modelling conventions:
* C `uint8_t` casts are `% 256` on `Int` (`toU8`); `clamp255` mirrors the
  source's clamp helper; `atoi` mirrors C `atoi` (whitespace skip, optional
  sign, leading digits, 0 when no digits).
* `strtok_r` with delimiter "," yields the nonempty maximal comma-free
  substrings, in order (`tokens`).
* The EasyNixie color macros (`EASY_NIXIE_BLUE`, ...) are opaque distinct
  library constants not present in this repository; they are in bijection
  with the rows of the palette table in `rgbToEnum`, so they are modelled
  as the palette index `Fin 7`.
* Hardware side effects are modelled as an event list `Out`: serial prints
  (`Out.msg`), per-tube transport writes (`Out.setNixie`, one per
  `nixie.SetNixie` call) and the final `Out.latch` (`nixie.Latch`).
  `analogWrite(PIN_OUT_EN, dim)` is modelled as the `brightness` field of
  the global state.
* `millis()` values are passed in as explicit `Nat` clock arguments;
  `random(0, 10)` results are passed in as an oracle `dg : Fin 6 → Nat`
  (with the Arduino contract `dg i < 10` as a hypothesis where needed).
-/

namespace Nixie

/-- Per-tube display state, mirroring `struct TubeState` in nixie.ino. -/
structure TubeState where
  digit : Nat
  r : Nat
  g : Nat
  b : Nat
  hv : Bool
  comma : Bool
  dim : Nat
  deriving DecidableEq

/-- One externally visible effect of the firmware: a serial reply line, a
per-tube transport write (`nixie.SetNixie`), or the commit (`nixie.Latch`). -/
inductive Out where
  | msg (text : String)
  | setNixie (digit : Nat) (col : Fin 7) (hv : Bool) (comma : Bool) (dim : Nat)
  | latch
  deriving DecidableEq

/-- The firmware's global mutable state: `tubes[]`, `gotFirstCommand`,
the line buffer `buf`/`blen`, the two timestamps, and the global PWM
brightness last written by `setBrightness` (`analogWrite`). -/
@[ext]
structure Sys where
  tubes : Fin 6 → TubeState
  gotFirstCommand : Bool
  buf : List Char
  lastByteAt : Nat
  lastAttract : Nat
  brightness : Nat

/-- `clamp255` from nixie.ino: `(v<0)?0:(v>255)?255:v`. -/
def clamp255 (v : Int) : Nat :=
  if v < 0 then 0 else if 255 < v then 255 else v.toNat

/-- C conversion of an `int` to `uint8_t`: reduction modulo 256. -/
def toU8 (v : Int) : Nat := (v % 256).toNat

/-- The fixed 7-entry palette table of `rgbToEnum` (RGB components only;
the associated `EASY_NIXIE_*` enum constant is identified with the row
index, see the module comment). -/
def pal : Fin 7 → Nat × Nat × Nat := fun i =>
  match i with
  | 0 => (0, 0, 255)
  | 1 => (0, 255, 0)
  | 2 => (255, 0, 0)
  | 3 => (255, 255, 255)
  | 4 => (255, 0, 255)
  | 5 => (255, 255, 0)
  | 6 => (0, 255, 255)

/-- Squared Euclidean RGB distance to palette entry `i`, as computed in
the nearest-color loop of `rgbToEnum` (`dr*dr + dg*dg + db*db`). -/
def sqDist (r g b : Nat) (i : Fin 7) : Int :=
  ((r : Int) - ((pal i).1 : Nat)) ^ 2 + ((g : Int) - ((pal i).2.1 : Nat)) ^ 2 +
    ((b : Int) - ((pal i).2.2 : Nat)) ^ 2

/-- One iteration of the nearest-color loop: keep `(bestD, bestE)` unless
the candidate's distance is strictly smaller. -/
def minStep (f : Fin 7 → Int) (best : Int × Fin 7) (i : Fin 7) : Int × Fin 7 :=
  if f i < best.1 then (f i, i) else best

/-- The nearest-color loop of `rgbToEnum`: `bestD = 0xFFFFFFFF`,
`bestE = pal[0]`, scan all entries in order with a strict-less update. -/
def nearest (r g b : Nat) : Fin 7 :=
  ((List.finRange 7).foldl (minStep (sqDist r g b)) (4294967295, 0)).2

/-- The exact-match shortcut loop of `rgbToEnum`: first palette row whose
RGB equals the input exactly, if any. -/
def exactIdx (r g b : Nat) : Option (Fin 7) :=
  (List.finRange 7).find? fun i =>
    (pal i).1 == r && (pal i).2.1 == g && (pal i).2.2 == b

/-- `rgbToEnum` from nixie.ino: exact-match shortcut, else nearest color. -/
def rgbToEnum (r g b : Nat) : Fin 7 :=
  match exactIdx r g b with
  | some i => i
  | none => nearest r g b

/-- `setTube` from nixie.ino: write one tube's state, silently ignoring an
out-of-range index. -/
def setTube (tubes : Fin 6 → TubeState) (i : Nat) (d r g b : Nat)
    (hv comma : Bool) (dim : Nat) : Fin 6 → TubeState :=
  if h : i < 6 then Function.update tubes ⟨i, h⟩ ⟨d, r, g, b, hv, comma, dim⟩
  else tubes

/-- The per-tube body of `render`: blank-clamp the digit
(`(t.hv && t.digit <= 9) ? t.digit : 0`), quantize the color, and emit one
`SetNixie` transport call. -/
def renderTube (t : TubeState) : Out :=
  Out.setNixie (if t.hv && decide (t.digit ≤ 9) then t.digit else 0)
    (rgbToEnum t.r t.g t.b) t.hv t.comma t.dim

/-- `render` from nixie.ino: emit every tube from index 5 (farthest) down
to 0 (nearest), then exactly one `Latch`. -/
def renderOut (tubes : Fin 6 → TubeState) : List Out :=
  ((List.finRange 6).reverse.map fun i => renderTube (tubes i)) ++ [Out.latch]

/-- Characters stripped by `rtrim` in nixie.ino. -/
def isLineTrimChar (c : Char) : Bool :=
  c == '\r' || c == '\n' || c == ' ' || c == '\t'

/-- `rtrim` from nixie.ino: strip trailing CR/LF/space/tab. -/
def rtrim (s : List Char) : List Char :=
  (s.reverse.dropWhile isLineTrimChar).reverse

/-- `ltrim` from nixie.ino: skip leading space/tab. -/
def ltrim (s : List Char) : List Char :=
  s.dropWhile fun c => c == ' ' || c == '\t'

/-- C `isspace` characters, as skipped by `atoi`. -/
def isCSpace (c : Char) : Bool :=
  c == ' ' || c == '\t' || c == '\n' || c == '\x0b' || c == '\x0c' || c == '\r'

/-- Value of the leading decimal-digit run of a token (`atoi` digit loop). -/
def atoiDigits : List Char → Nat → Nat
  | [], acc => acc
  | c :: cs, acc =>
    if c.isDigit then atoiDigits cs (acc * 10 + (c.toNat - 48)) else acc

/-- C `atoi`: skip whitespace, optional sign, leading digits; 0 when the
token has no leading digits. -/
def atoi (s : List Char) : Int :=
  let s1 := s.dropWhile isCSpace
  match s1 with
  | '-' :: rest => -(atoiDigits rest 0 : Int)
  | '+' :: rest => (atoiDigits rest 0 : Int)
  | _ => (atoiDigits s1 0 : Int)

/-- Split on commas keeping empty pieces (helper for `tokens`). -/
def splitAux : List Char → List Char → List (List Char)
  | [], cur => [cur.reverse]
  | c :: cs, cur =>
    if c == ',' then cur.reverse :: splitAux cs [] else splitAux cs (c :: cur)

/-- The token sequence `strtok_r(p, ",", ...)` produces: the nonempty
maximal comma-free substrings of `p`, in order. -/
def tokens (p : List Char) : List (List Char) :=
  (splitAux p []).filter fun t => !t.isEmpty

/-- The `int` value `f[i] = atoi(tok)` of the `i`-th data-field token of an
N line (after the parser's own leading space/tab skip), given the token
list that follows the eaten leading token. -/
def fVal (ft : List (List Char)) (i : Nat) : Int :=
  atoi ((ft.getD i []).dropWhile fun c => c == ' ' || c == '\t')

/-- The `int` value of the `i`-th data field of an N line (field 0 = idx),
expressed against the whole line (token 0 is the eaten directive token). -/
def fieldVal (p : List Char) (i : Nat) : Int :=
  atoi (((tokens p).getD (i + 1) []).dropWhile fun c => c == ' ' || c == '\t')

/-- The tube array written by a successful `parseNLine` body:
`setTube(idx, hv ? digit : 0, r, g, b, hv, false, dim)` with the casts and
clamps of the source. -/
def nTubes (tubes : Fin 6 → TubeState) (ft : List (List Char)) : Fin 6 → TubeState :=
  setTube tubes (toU8 (fVal ft 0))
    (if toU8 (fVal ft 1) ≤ 9 then toU8 (fVal ft 1) else 0)
    (clamp255 (fVal ft 2)) (clamp255 (fVal ft 3)) (clamp255 (fVal ft 4))
    (decide (toU8 (fVal ft 1) ≤ 9)) false (toU8 (fVal ft 5))

/-- `parseNLine` from nixie.ino. Returns the C function's boolean result
together with the updated state and emitted events (the C version mutates
globals and prints nothing itself): eat the directive token, require six
field tokens, cast `idx`, `digit`, `dim` to `uint8_t`, clamp `r,g,b`,
reject `idx >= NUM_TUBES`, else set the mode flag, the global brightness,
the addressed tube, and render. -/
def parseNLine (s : Sys) (p : List Char) : Bool × Sys × List Out :=
  match tokens p with
  | [] => (false, s, [])
  | _ :: ft =>
    if 6 ≤ ft.length then
      if 6 ≤ toU8 (fVal ft 0) then (false, s, [])
      else
        (true,
         { s with
            gotFirstCommand := true
            brightness := toU8 (fVal ft 5)
            tubes := nTubes s.tubes ft },
         renderOut (nTubes s.tubes ft))
    else (false, s, [])

/-- `handleLine` from nixie.ino: trim, then dispatch on the leading
character ("42" easter egg, "A"/"a" attract resume, "N"/"n" update,
anything else silently ignored). -/
def handleLine (s : Sys) (raw : List Char) : Sys × List Out :=
  let p := ltrim (rtrim raw)
  if p = [] then (s, [])
  else if p = ['4', '2'] then (s, [Out.msg ("so long and thanks for all the fish")])
  else if p = ['A'] ∨ p = ['a'] then
    ({ s with gotFirstCommand := false }, [Out.msg ("Attract mode resumed")])
  else if p.head? = some 'N' ∨ p.head? = some 'n' then
    let r := parseNLine s p
    if r.1 then (r.2.1, r.2.2)
    else (r.2.1, r.2.2 ++ [Out.msg ("ERR parse N line")])
  else (s, [])

/-- One received serial byte, from the reader loop in `loop()`:
terminator → dispatch a nonempty buffer; otherwise append if
`blen+1 < sizeof(buf)` (192), else discard the buffer and report overflow. -/
def serialByte (s : Sys) (c : Char) (now : Nat) : Sys × List Out :=
  let s1 := { s with lastByteAt := now }
  if c = '\n' ∨ c = '\r' then
    if s1.buf = [] then (s1, [])
    else
      let r := handleLine s1 s1.buf
      ({ r.1 with buf := [] }, r.2)
  else if s1.buf.length + 1 < 192 then ({ s1 with buf := s1.buf ++ [c] }, [])
  else ({ s1 with buf := [] }, [Out.msg ("ERR buffer overflow")])

/-- Folding step for draining the available serial bytes. -/
def drainStep (now : Nat) (acc : Sys × List Out) (c : Char) : Sys × List Out :=
  let r := serialByte acc.1 c now
  (r.1, acc.2 ++ r.2)

/-- The `while (Serial.available())` reader loop of `loop()`, over the
currently available bytes. -/
def serialDrain (s : Sys) (input : List Char) (now : Nat) : Sys × List Out :=
  input.foldl (drainStep now) (s, [])

/-- The idle-flush check of `loop()`: a nonempty buffer idle for at least
`IDLE_PARSE_MS` (30 ms) is dispatched as a complete line and cleared. -/
def idleFlush (s : Sys) (now : Nat) : Sys × List Out :=
  if s.buf ≠ [] ∧ 30 ≤ now - s.lastByteAt then
    let r := handleLine s s.buf
    ({ r.1 with buf := [] }, r.2)
  else (s, [])

/-- The attract fill loop (shared by `setup()` and the attract tick):
`setTube(i, random(0,10), 255, 0, 0, true, false, ATTRACT_DIM)` for
`i = 0..5`, with the `random(0,10)` values supplied by the oracle `dg`. -/
def attractFill (tubes : Fin 6 → TubeState) (dg : Fin 6 → Nat) : Fin 6 → TubeState :=
  (List.finRange 6).foldl (fun ts i => setTube ts i.1 (dg i) 255 0 0 true false 0) tubes

/-- The body of the attract tick in `loop()`: restore attract brightness,
fill every tube with a random red digit, render, and restamp
`lastAttract`. -/
def attractTick (s : Sys) (now : Nat) (dg : Fin 6 → Nat) : Sys × List Out :=
  let tubes2 := attractFill s.tubes dg
  ({ s with brightness := 0, tubes := tubes2, lastAttract := now },
   renderOut tubes2)

/-- The attract section of `loop()`: tick only while no command has ever
been accepted and at least `ATTRACT_MS` (50 ms) passed since the last tick. -/
def attractPhase (s : Sys) (now : Nat) (dg : Fin 6 → Nat) : Sys × List Out :=
  if ¬s.gotFirstCommand ∧ 50 ≤ now - s.lastAttract then attractTick s now dg
  else (s, [])

/-- One invocation of `loop()`: drain available serial bytes, idle-flush
check, attract check. `now` is the `millis()` reading, `dg` the
`random(0,10)` oracle for a potential attract tick. -/
def loopCycle (s : Sys) (input : List Char) (now : Nat) (dg : Fin 6 → Nat) :
    Sys × List Out :=
  let r1 := serialDrain s input now
  let r2 := idleFlush r1.1 now
  let r3 := attractPhase r2.1 now dg
  (r3.1, r1.2 ++ r2.2 ++ r3.2)

/-- The state left by `setup()`: attract brightness, random red digits in
every tube, empty line buffer, `lastAttract = millis()` at end of setup. -/
def setupState (dg : Fin 6 → Nat) (t0 : Nat) : Sys :=
  { tubes := attractFill (fun _ => ⟨0, 0, 0, 0, false, false, 0⟩) dg,
    gotFirstCommand := false, buf := [], lastByteAt := 0,
    lastAttract := t0, brightness := 0 }

/-- States reachable from boot: `setup()` followed by any sequence of
`loop()` invocations with arbitrary serial input, clock readings and
random values (the Arduino `random(0,10)` contract bounds the oracle). -/
inductive Reachable : Sys → Prop where
  | boot (dg : Fin 6 → Nat) (hdg : ∀ i, dg i < 10) (t0 : Nat) :
      Reachable (setupState dg t0)
  | step (s : Sys) (input : List Char) (now : Nat) (dg : Fin 6 → Nat)
      (hdg : ∀ i, dg i < 10) : Reachable s →
      Reachable (loopCycle s input now dg).1

/-- The Tube State Store invariant of claim C10: every stored digit is at
most 9. -/
def DigitInv (s : Sys) : Prop := ∀ i, (s.tubes i).digit ≤ 9

/-- A concrete boot state used as the base point of the concrete
counterexamples and witnesses. -/
def s0 : Sys := setupState (fun _ => 0) 0

end Nixie

namespace Nixie

lemma fieldVal_cons {p : List Char} {t0 : List Char} {ft : List (List Char)}
    (h : tokens p = t0 :: ft) (i : Nat) : fieldVal p i = fVal ft i := by
  simp [fieldVal, fVal, h]

lemma parseNLine_success (s : Sys) (p : List Char) (t0 : List Char)
    (ft : List (List Char)) (htok : tokens p = t0 :: ft) (hlen : 6 ≤ ft.length)
    (hidx : ¬6 ≤ toU8 (fVal ft 0)) :
    parseNLine s p =
      (true,
       { s with
          gotFirstCommand := true
          brightness := toU8 (fVal ft 5)
          tubes := nTubes s.tubes ft },
       renderOut (nTubes s.tubes ft)) := by
  simp [parseNLine, htok, hlen, hidx]

lemma setTube_lt (tubes : Fin 6 → TubeState) (i : Nat) (d r g b : Nat)
    (hv comma : Bool) (dim : Nat) (h : i < 6) :
    setTube tubes i d r g b hv comma dim =
      Function.update tubes ⟨i, h⟩ ⟨d, r, g, b, hv, comma, dim⟩ := by
  simp [setTube, h]

/-- C1 as stated is false: the idx field 256 is not a valid tube index
(it is not in 0..5), yet the line is accepted — the `uint8_t` cast wraps
256 to 0, so tube 0 is mutated, the mode flag is set, and no parse error
is reported. -/
theorem C1_counterexample :
    ((handleLine s0 (("N,256,5,0,0,0,0").toList)).1.tubes 0 =
      ⟨5, 0, 0, 0, true, false, 0⟩) ∧
    (handleLine s0 (("N,256,5,0,0,0,0").toList)).1.gotFirstCommand = true ∧
    Out.msg ("ERR parse N line") ∉ (handleLine s0 (("N,256,5,0,0,0,0").toList)).2 := by
  decide

/-- C1 amended: an N command is rejected (with the parse-error report and
no state mutation at all) exactly when its idx field reduced modulo 256
(the `uint8_t` cast) is not a valid tube index. -/
theorem C1_idx_reject (s : Sys) (raw : List Char)
    (hN : (ltrim (rtrim raw)).head? = some 'N' ∨ (ltrim (rtrim raw)).head? = some 'n')
    (hidx : 6 ≤ toU8 (fieldVal (ltrim (rtrim raw)) 0)) :
    handleLine s raw = (s, [Out.msg ("ERR parse N line")]) := by
  set p := ltrim (rtrim raw) with hp
  have hpne : p ≠ [] := by intro h; rw [h] at hN; simp at hN
  have hnot42 : p ≠ ['4', '2'] := by intro h; rw [h] at hN; simp at hN
  have hnotA : ¬(p = ['A'] ∨ p = ['a']) := by
    rintro (h | h) <;> rw [h] at hN <;> simp at hN
  have hfail : parseNLine s p = (false, s, []) := by
    cases htok : tokens p with
    | nil => simp [parseNLine, htok]
    | cons t0 ft =>
      by_cases hlen : 6 ≤ ft.length
      · have h6 : 6 ≤ toU8 (fVal ft 0) := by rw [← fieldVal_cons htok]; exact hidx
        simp [parseNLine, htok, hlen, h6]
      · simp [parseNLine, htok, hlen]
  unfold handleLine
  rw [← hp]
  rw [if_neg hpne, if_neg hnot42, if_neg hnotA, if_pos hN]
  simp [hfail]

theorem C1_idx_reject_witness :
    handleLine s0 (("N,9,5,255,0,0,0").toList) = (s0, [Out.msg ("ERR parse N line")]) :=
  C1_idx_reject s0 (("N,9,5,255,0,0,0").toList) (by decide) (by decide)

end Nixie

namespace Nixie

/-- C2 as stated is false: after processing `N,0,15,10,10,10,0` tube 0 is
NOT lit — the firmware derives `hv = (digit <= 9) = false` and stores
`lit = false` (with digit 0), rather than a lit tube with a blank digit. -/
theorem C2_counterexample :
    ((handleLine s0 (("N,0,15,10,10,10,0").toList)).1.tubes 0).hv = false ∧
    Out.msg ("ERR parse N line") ∉ (handleLine s0 (("N,0,15,10,10,10,0").toList)).2 := by
  decide

/-- C2 amended: processing `N,0,15,10,10,10,0` succeeds with no error
report; tube 0 is stored unlit (`lit = false`) with digit 0 and the
requested color, and the render pass emits an unlit, blank transport call
for it. -/
theorem C2_digit15_blank (s : Sys) :
    handleLine s (("N,0,15,10,10,10,0").toList) =
      ({ s with
          gotFirstCommand := true
          brightness := 0
          tubes := Function.update s.tubes 0 ⟨0, 10, 10, 10, false, false, 0⟩ },
       renderOut (Function.update s.tubes 0 ⟨0, 10, 10, 10, false, false, 0⟩)) ∧
    (∀ m, Out.msg m ∉ renderOut (Function.update s.tubes 0 ⟨0, 10, 10, 10, false, false, 0⟩)) ∧
    (renderOut (Function.update s.tubes 0 ⟨0, 10, 10, 10, false, false, 0⟩)).getD 5 Out.latch =
      Out.setNixie 0 (rgbToEnum 10 10 10) false false 0 := by
  refine ⟨rfl, ?_, ?_⟩
  · intro m
    have hfr : (List.finRange 6).reverse = [5, 4, 3, 2, 1, 0] := by decide
    simp [renderOut, hfr, renderTube]
  · have hfr : (List.finRange 6).reverse = [5, 4, 3, 2, 1, 0] := by decide
    simp [renderOut, hfr]
    rfl

end Nixie

namespace Nixie

/-- C3 as stated is false: the line `N,0,x,5,6,7,8` has a non-numeric
token ("x") among its six fields, yet no parse error is reported and the
Tube State Store is mutated — `atoi` silently converts "x" to 0. -/
theorem C3_counterexample :
    ((handleLine s0 (("N,0,x,5,6,7,8").toList)).1.tubes 0 =
      ⟨0, 5, 6, 7, true, false, 8⟩) ∧
    (handleLine s0 (("N,0,x,5,6,7,8").toList)).1.gotFirstCommand = true ∧
    Out.msg ("ERR parse N line") ∉ (handleLine s0 (("N,0,x,5,6,7,8").toList)).2 := by
  decide

/-- C3 amended: `parseNLine` fails (and then reports a parse error with no
state change) exactly when the line has fewer than six field tokens or an
out-of-range idx byte; a non-numeric token never fails by itself, because
`atoi` turns it into the value of its leading digits (0 if none). -/
theorem C3_fail_iff (s : Sys) (p : List Char) :
    ((parseNLine s p).1 = false ↔
      (tokens p).length < 7 ∨ 6 ≤ toU8 (fieldVal p 0)) ∧
    ((parseNLine s p).1 = false → parseNLine s p = (false, s, [])) := by
  cases htok : tokens p with
  | nil => simp [parseNLine, htok]
  | cons t0 ft =>
    have hfv : fieldVal p 0 = fVal ft 0 := fieldVal_cons htok 0
    by_cases hlen : 6 ≤ ft.length
    · by_cases hidx : 6 ≤ toU8 (fVal ft 0)
      · refine ⟨?_, ?_⟩
        · simp [parseNLine, htok, hlen, hidx, hfv]
        · intro _; simp [parseNLine, htok, hlen, hidx]
      · refine ⟨?_, ?_⟩
        · simp only [parseNLine, htok, hlen, hidx]
          simp [hfv, hidx]
          omega
        · intro hfalse; exfalso
          simp [parseNLine, htok, hlen, hidx] at hfalse
    · refine ⟨?_, ?_⟩
      · simp [parseNLine, htok, hlen, hfv]
        omega
      · intro _; simp [parseNLine, htok, hlen]

theorem C3_fail_iff_witness :
    (parseNLine s0 (("N,1,2").toList)).1 = false ∧
    parseNLine s0 (("N,1,2").toList) = (false, s0, []) := by
  have h := C3_fail_iff s0 (("N,1,2").toList)
  have hf : (parseNLine s0 (("N,1,2").toList)).1 = false :=
    h.1.mpr (by decide)
  exact ⟨hf, h.2 hf⟩

/-- C5: a render-all pass emits exactly one transport call per tube, in
order from tube 5 (farthest) down to tube 0 (nearest), each carrying the
blank-clamped digit, the quantized color, the lit flag, the comma flag and
the brightness, followed by exactly one latch call. -/
theorem C5_render_order (t : Fin 6 → TubeState) :
    renderOut t = [renderTube (t 5), renderTube (t 4), renderTube (t 3),
      renderTube (t 2), renderTube (t 1), renderTube (t 0), Out.latch] ∧
    ∀ i : Fin 6, renderTube (t i) =
      Out.setNixie (if (t i).hv && decide ((t i).digit ≤ 9) then (t i).digit else 0)
        (rgbToEnum (t i).r (t i).g (t i).b) (t i).hv (t i).comma (t i).dim := by
  exact ⟨rfl, fun i => rfl⟩

end Nixie

namespace Nixie

/-- C9: every successful N command applies its dim byte as the global
brightness on the transport driver (the same value it stores in the
addressed tube, with no 0..255 clamping beyond the `uint8_t` cast), and
sets the SystemMode flag. -/
theorem C9_dim_global (s : Sys) (p : List Char)
    (h : (parseNLine s p).1 = true) :
    ((parseNLine s p).2.1).brightness = toU8 (fieldVal p 5) ∧
    ((parseNLine s p).2.1).gotFirstCommand = true ∧
    (∀ j : Fin 6, (j : Nat) = toU8 (fieldVal p 0) →
      ((parseNLine s p).2.1).tubes j =
        ⟨(if toU8 (fieldVal p 1) ≤ 9 then toU8 (fieldVal p 1) else 0),
         clamp255 (fieldVal p 2), clamp255 (fieldVal p 3), clamp255 (fieldVal p 4),
         decide (toU8 (fieldVal p 1) ≤ 9), false, toU8 (fieldVal p 5)⟩) ∧
    (∀ j : Fin 6, (j : Nat) ≠ toU8 (fieldVal p 0) →
      ((parseNLine s p).2.1).tubes j = s.tubes j) := by
  cases htok : tokens p with
  | nil => simp [parseNLine, htok] at h
  | cons t0 ft =>
    have hfv : ∀ i, fieldVal p i = fVal ft i := fieldVal_cons htok
    by_cases hlen : 6 ≤ ft.length
    · by_cases hidx : 6 ≤ toU8 (fVal ft 0)
      · simp [parseNLine, htok, hlen, hidx] at h
      · have hlt : toU8 (fVal ft 0) < 6 := Nat.lt_of_not_le hidx
        rw [parseNLine_success s p t0 ft htok hlen hidx]
        refine ⟨by simp [hfv], rfl, ?_, ?_⟩
        · intro j hj
          simp only [hfv]
          show nTubes s.tubes ft j = _
          rw [nTubes, setTube_lt _ _ _ _ _ _ _ _ _ hlt]
          have : j = (⟨toU8 (fVal ft 0), hlt⟩ : Fin 6) := by
            apply Fin.ext; rw [hj, hfv]
          rw [this, Function.update_same]
        · intro j hj
          show nTubes s.tubes ft j = s.tubes j
          rw [nTubes, setTube_lt _ _ _ _ _ _ _ _ _ hlt]
          have hne : j ≠ (⟨toU8 (fVal ft 0), hlt⟩ : Fin 6) := by
            intro he; exact hj (by rw [he, hfv])
          rw [Function.update_noteq hne]
    · simp [parseNLine, htok, hlen] at h

theorem C9_dim_global_witness :
    ((parseNLine s0 (("N,3,7,1,2,3,44").toList)).2.1).brightness =
      toU8 (fieldVal (("N,3,7,1,2,3,44").toList) 5) ∧
    ((parseNLine s0 (("N,3,7,1,2,3,44").toList)).2.1).gotFirstCommand = true :=
  ⟨(C9_dim_global s0 (("N,3,7,1,2,3,44").toList) (by decide)).1,
   (C9_dim_global s0 (("N,3,7,1,2,3,44").toList) (by decide)).2.1⟩

end Nixie

namespace Nixie

lemma parseNLine_lastByteAt (s : Sys) (t : Nat) (p : List Char) :
    parseNLine { s with lastByteAt := t } p =
      ((parseNLine s p).1,
       { (parseNLine s p).2.1 with lastByteAt := t },
       (parseNLine s p).2.2) := by
  cases htok : tokens p with
  | nil => simp [parseNLine, htok]
  | cons t0 ft =>
    by_cases hlen : 6 ≤ ft.length
    · by_cases hidx : 6 ≤ toU8 (fVal ft 0)
      · simp [parseNLine, htok, hlen, hidx]
      · rw [parseNLine_success _ p t0 ft htok hlen hidx,
          parseNLine_success s p t0 ft htok hlen hidx]
    · simp [parseNLine, htok, hlen]

lemma handleLine_lastByteAt (s : Sys) (t : Nat) (raw : List Char) :
    handleLine { s with lastByteAt := t } raw =
      ({ (handleLine s raw).1 with lastByteAt := t }, (handleLine s raw).2) := by
  unfold handleLine
  set p := ltrim (rtrim raw) with hp
  by_cases h1 : p = []
  · simp [h1]
  · by_cases h2 : p = ['4', '2']
    · simp [h1, h2]
    · by_cases h3 : p = ['A'] ∨ p = ['a']
      · simp [h1, h2, h3]
      · by_cases h4 : p.head? = some 'N' ∨ p.head? = some 'n'
        · simp only [if_neg h1, if_neg h2, if_neg h3, if_pos h4]
          rw [parseNLine_lastByteAt]
          cases hres : (parseNLine s p).1 <;> simp [hres]
        · simp [h1, h2, h3, h4]

/-- C7: whenever the line buffer is nonempty and at least 30 ms have
passed since the last received byte, the loop's idle check dispatches the
buffered partial line to the command parser exactly as a terminator byte
would (same parser call, same outputs, same resulting state except for the
byte timestamp a real terminator would stamp), and resets the buffer. -/
theorem C7_idle_parse (s : Sys) (now : Nat) (hbuf : s.buf ≠ [])
    (hidle : 30 ≤ now - s.lastByteAt) :
    idleFlush s now =
      ({ (handleLine s s.buf).1 with buf := [] }, (handleLine s s.buf).2) ∧
    serialByte s '\n' now =
      ({ (handleLine s s.buf).1 with buf := [], lastByteAt := now },
       (handleLine s s.buf).2) := by
  constructor
  · unfold idleFlush
    rw [if_pos ⟨hbuf, hidle⟩]
  · simp only [serialByte]
    rw [if_pos (Or.inl trivial : True ∨ ('\n' : Char) = '\r')]
    rw [if_neg hbuf]
    rw [handleLine_lastByteAt]

theorem C7_idle_parse_witness :
    idleFlush { s0 with buf := ("42").toList } 30 =
      ({ (handleLine { s0 with buf := ("42").toList }
            (({ s0 with buf := ("42").toList } : Sys).buf)).1 with buf := [] },
       (handleLine { s0 with buf := ("42").toList }
          (({ s0 with buf := ("42").toList } : Sys).buf)).2) :=
  (C7_idle_parse { s0 with buf := ("42").toList } 30 (by decide) (by decide)).1

end Nixie

namespace Nixie

lemma foldl_drain_out (cs : List Char) (now : Nat) :
    ∀ (s : Sys) (os : List Out),
      cs.foldl (drainStep now) (s, os) =
        ((serialDrain s cs now).1, os ++ (serialDrain s cs now).2) := by
  induction cs with
  | nil => intro s os; simp [serialDrain]
  | cons c cs ih =>
    intro s os
    rw [List.foldl_cons]
    have hstep : drainStep now (s, os) c =
        ((serialByte s c now).1, os ++ (serialByte s c now).2) := rfl
    rw [hstep, ih]
    conv_rhs => rw [serialDrain, List.foldl_cons]
    have hstep0 : drainStep now (s, ([] : List Out)) c =
        ((serialByte s c now).1, [] ++ (serialByte s c now).2) := rfl
    rw [hstep0]
    show _ = ((cs.foldl (drainStep now) ((serialByte s c now).1, [] ++ (serialByte s c now).2)).1,
      os ++ (cs.foldl (drainStep now) ((serialByte s c now).1, [] ++ (serialByte s c now).2)).2)
    rw [List.nil_append, ih]
    simp [List.append_assoc]

lemma serialDrain_cons (s : Sys) (c : Char) (cs : List Char) (now : Nat) :
    serialDrain s (c :: cs) now =
      ((serialDrain (serialByte s c now).1 cs now).1,
       (serialByte s c now).2 ++ (serialDrain (serialByte s c now).1 cs now).2) := by
  rw [serialDrain, List.foldl_cons]
  have hstep0 : drainStep now (s, ([] : List Out)) c =
      ((serialByte s c now).1, [] ++ (serialByte s c now).2) := rfl
  rw [hstep0, List.nil_append, foldl_drain_out]

lemma serialDrain_accum (bs : List Char) :
    ∀ (s : Sys) (now : Nat),
      (∀ c ∈ bs, ¬(c = '\n' ∨ c = '\r')) → s.buf.length + bs.length ≤ 191 →
      bs ≠ [] →
      serialDrain s bs now = ({ s with buf := s.buf ++ bs, lastByteAt := now }, []) := by
  induction bs with
  | nil => intro s now _ _ hne; exact absurd rfl hne
  | cons c cs ih =>
    intro s now hnt hlen _
    have hc := hnt c (List.mem_cons_self c cs)
    have hstep : serialByte s c now =
        ({ s with buf := s.buf ++ [c], lastByteAt := now }, []) := by
      simp only [serialByte]
      rw [if_neg hc, if_pos (by simp at hlen ⊢; omega)]
    rw [serialDrain_cons, hstep]
    by_cases hcs : cs = []
    · subst hcs
      simp [serialDrain]
    · rw [ih _ now (fun x hx => hnt x (List.mem_cons_of_mem _ hx))
        (by simp at hlen ⊢; omega) hcs]
      simp

/-- C8: a non-terminator byte arriving with the buffer full discards the
whole buffer, reports the overflow, dispatches nothing to the parser, and
afterwards fresh bytes accumulate from an empty buffer so that the next
terminated line is parsed normally. -/
theorem C8_overflow (s : Sys) (c : Char) (now : Nat)
    (hc : ¬(c = '\n' ∨ c = '\r')) (hfull : 192 ≤ s.buf.length + 1) :
    serialByte s c now =
      ({ s with buf := [], lastByteAt := now }, [Out.msg ("ERR buffer overflow")]) ∧
    (∀ bs now2, (∀ b ∈ bs, ¬(b = '\n' ∨ b = '\r')) → bs.length ≤ 191 → bs ≠ [] →
      serialDrain { s with buf := [], lastByteAt := now } (bs ++ ['\n']) now2 =
        ({ (handleLine { s with buf := bs, lastByteAt := now2 } bs).1 with buf := [] },
         (handleLine { s with buf := bs, lastByteAt := now2 } bs).2)) := by
  constructor
  · simp only [serialByte]
    rw [if_neg hc, if_neg (by omega)]
  · intro bs now2 hnt hlen hne
    have hacc := serialDrain_accum bs { s with buf := [], lastByteAt := now } now2 hnt
      (by simpa using hlen) hne
    rw [serialDrain, List.foldl_append]
    rw [show (List.foldl (drainStep now2) ({ s with buf := [], lastByteAt := now }, []) bs)
        = serialDrain { s with buf := [], lastByteAt := now } bs now2 from rfl]
    rw [hacc]
    rw [List.foldl_cons, List.foldl_nil]
    have hstep : drainStep now2
        (({ s with buf := ([] : List Char) ++ bs, lastByteAt := now2 }, ([] : List Out))) '\n' =
        ((serialByte { s with buf := bs, lastByteAt := now2 } '\n' now2).1,
         [] ++ (serialByte { s with buf := bs, lastByteAt := now2 } '\n' now2).2) := rfl
    rw [hstep, List.nil_append]
    simp only [serialByte]
    rw [if_pos (Or.inl trivial : True ∨ ('\n' : Char) = '\r')]
    rw [if_neg hne]

theorem C8_overflow_witness :
    serialByte { s0 with buf := List.replicate 191 ('x') } ('x') 5 =
      ({ { s0 with buf := List.replicate 191 ('x') } with buf := [], lastByteAt := 5 },
       [Out.msg ("ERR buffer overflow")]) :=
  (C8_overflow { s0 with buf := List.replicate 191 ('x') } ('x') 5 (by decide)
    (by show (192 : Nat) ≤ (List.replicate 191 ('x')).length + 1
        rw [List.length_replicate])).1

end Nixie

namespace Nixie

lemma attractFill_eq (tubes : Fin 6 → TubeState) (dg : Fin 6 → Nat) :
    attractFill tubes dg = fun i => ⟨dg i, 255, 0, 0, true, false, 0⟩ := by
  funext i
  fin_cases i <;> rfl

lemma parseNLine_buf (s : Sys) (p : List Char) :
    ((parseNLine s p).2.1).buf = s.buf := by
  cases htok : tokens p with
  | nil => simp [parseNLine, htok]
  | cons t0 ft =>
    by_cases hlen : 6 ≤ ft.length
    · by_cases hidx : 6 ≤ toU8 (fVal ft 0)
      · simp [parseNLine, htok, hlen, hidx]
      · rw [parseNLine_success s p t0 ft htok hlen hidx]
    · simp [parseNLine, htok, hlen]

lemma handleLine_A (s : Sys) (a : List Char) (ha : a = ['A'] ∨ a = ['a']) :
    handleLine s a =
      ({ s with gotFirstCommand := false }, [Out.msg ("Attract mode resumed")]) := by
  rcases ha with rfl | rfl <;> rfl

/-- C6: after any successful N command, the line "A" (or "a") resets the
mode flag without touching any tube, and the next attract tick (once 50 ms
have elapsed since the last tick) overwrites every tube with a random
digit 0-9, lit, red, at the fixed attract brightness, and renders. -/
theorem C6_attract_resume (s : Sys) (p : List Char)
    (_hsucc : (parseNLine s p).1 = true) (a : List Char)
    (ha : a = ['A'] ∨ a = ['a']) (now : Nat) (dg : Fin 6 → Nat)
    (hdg : ∀ i, dg i < 10) (hbuf : s.buf = [])
    (htick : 50 ≤ now - ((parseNLine s p).2.1).lastAttract) :
    handleLine ((parseNLine s p).2.1) a =
      ({ (parseNLine s p).2.1 with gotFirstCommand := false },
       [Out.msg ("Attract mode resumed")]) ∧
    ({ (parseNLine s p).2.1 with gotFirstCommand := false }).tubes =
      ((parseNLine s p).2.1).tubes ∧
    loopCycle { (parseNLine s p).2.1 with gotFirstCommand := false } [] now dg =
      ({ (parseNLine s p).2.1 with
          gotFirstCommand := false
          brightness := 0
          lastAttract := now
          tubes := fun i => ⟨dg i, 255, 0, 0, true, false, 0⟩ },
       renderOut (fun i => ⟨dg i, 255, 0, 0, true, false, 0⟩)) ∧
    (∀ i : Fin 6, dg i ≤ 9) := by
  refine ⟨handleLine_A _ a ha, rfl, ?_, fun i => Nat.lt_succ_iff.mp (hdg i)⟩
  have hb2 : ({ (parseNLine s p).2.1 with gotFirstCommand := false } : Sys).buf = [] := by
    show ((parseNLine s p).2.1).buf = []
    rw [parseNLine_buf, hbuf]
  have hflush : idleFlush ({ (parseNLine s p).2.1 with gotFirstCommand := false }) now =
      ({ (parseNLine s p).2.1 with gotFirstCommand := false }, []) := by
    unfold idleFlush
    rw [if_neg]
    rintro ⟨hne, _⟩
    exact hne hb2
  have hphase : attractPhase ({ (parseNLine s p).2.1 with gotFirstCommand := false }) now dg =
      attractTick ({ (parseNLine s p).2.1 with gotFirstCommand := false }) now dg := by
    unfold attractPhase
    rw [if_pos]
    exact ⟨by simp, htick⟩
  simp only [loopCycle, serialDrain, List.foldl_nil]
  rw [hflush, hphase]
  unfold attractTick
  rw [attractFill_eq]
  simp

theorem C6_attract_resume_witness :
    handleLine ((parseNLine s0 (("N,2,5,255,0,0,0").toList)).2.1) ['A'] =
      ({ (parseNLine s0 (("N,2,5,255,0,0,0").toList)).2.1 with gotFirstCommand := false },
       [Out.msg ("Attract mode resumed")]) := by
  exact (C6_attract_resume s0 (("N,2,5,255,0,0,0").toList) (by decide) ['A'] (Or.inl rfl)
    100 (fun _ => 3) (by intro i; simp) rfl (by decide)).1

end Nixie

namespace Nixie

lemma digitInv_parseNLine (s : Sys) (p : List Char) (h : DigitInv s) :
    DigitInv (parseNLine s p).2.1 := by
  cases htok : tokens p with
  | nil => simpa [parseNLine, htok] using h
  | cons t0 ft =>
    by_cases hlen : 6 ≤ ft.length
    · by_cases hidx : 6 ≤ toU8 (fVal ft 0)
      · simpa [parseNLine, htok, hlen, hidx] using h
      · have hlt : toU8 (fVal ft 0) < 6 := Nat.lt_of_not_le hidx
        rw [parseNLine_success s p t0 ft htok hlen hidx]
        intro j
        show (nTubes s.tubes ft j).digit ≤ 9
        rw [nTubes, setTube_lt _ _ _ _ _ _ _ _ _ hlt]
        by_cases hj : j = (⟨toU8 (fVal ft 0), hlt⟩ : Fin 6)
        · rw [hj, Function.update_same]
          show (if toU8 (fVal ft 1) ≤ 9 then toU8 (fVal ft 1) else 0) ≤ 9
          split <;> omega
        · rw [Function.update_noteq hj]
          exact h j
    · simpa [parseNLine, htok, hlen] using h

lemma digitInv_handleLine (s : Sys) (raw : List Char) (h : DigitInv s) :
    DigitInv (handleLine s raw).1 := by
  unfold handleLine
  set p := ltrim (rtrim raw) with hp
  by_cases h1 : p = []
  · simpa [h1] using h
  · by_cases h2 : p = ['4', '2']
    · simpa [h1, h2] using h
    · by_cases h3 : p = ['A'] ∨ p = ['a']
      · simp only [if_neg h1, if_neg h2, if_pos h3]
        exact h
      · by_cases h4 : p.head? = some 'N' ∨ p.head? = some 'n'
        · simp only [if_neg h1, if_neg h2, if_neg h3, if_pos h4]
          split
          · exact digitInv_parseNLine s p h
          · exact digitInv_parseNLine s p h
        · simpa [h1, h2, h3, h4] using h

lemma digitInv_serialByte (s : Sys) (c : Char) (now : Nat) (h : DigitInv s) :
    DigitInv (serialByte s c now).1 := by
  unfold serialByte
  by_cases hterm : c = '\n' ∨ c = '\r'
  · rw [if_pos hterm]
    by_cases hb : ({ s with lastByteAt := now } : Sys).buf = []
    · rw [if_pos hb]; exact h
    · rw [if_neg hb]
      exact digitInv_handleLine _ _ h
  · rw [if_neg hterm]
    by_cases hcap : ({ s with lastByteAt := now } : Sys).buf.length + 1 < 192
    · rw [if_pos hcap]; exact h
    · rw [if_neg hcap]; exact h

lemma digitInv_foldl_drain (input : List Char) (now : Nat) :
    ∀ acc : Sys × List Out, DigitInv acc.1 →
      DigitInv (input.foldl (drainStep now) acc).1 := by
  induction input with
  | nil => intro acc h; exact h
  | cons c cs ih =>
    intro acc h
    rw [List.foldl_cons]
    exact ih _ (digitInv_serialByte acc.1 c now h)

lemma digitInv_idleFlush (s : Sys) (now : Nat) (h : DigitInv s) :
    DigitInv (idleFlush s now).1 := by
  unfold idleFlush
  by_cases hc : s.buf ≠ [] ∧ 30 ≤ now - s.lastByteAt
  · rw [if_pos hc]
    exact digitInv_handleLine _ _ h
  · rw [if_neg hc]; exact h

lemma digitInv_attractPhase (s : Sys) (now : Nat) (dg : Fin 6 → Nat)
    (hdg : ∀ i, dg i < 10) (h : DigitInv s) :
    DigitInv (attractPhase s now dg).1 := by
  unfold attractPhase
  by_cases hc : ¬s.gotFirstCommand ∧ 50 ≤ now - s.lastAttract
  · rw [if_pos hc]
    unfold attractTick
    rw [attractFill_eq]
    intro i
    exact Nat.lt_succ_iff.mp (hdg i)
  · rw [if_neg hc]; exact h

lemma digitInv_loopCycle (s : Sys) (input : List Char) (now : Nat)
    (dg : Fin 6 → Nat) (hdg : ∀ i, dg i < 10) (h : DigitInv s) :
    DigitInv (loopCycle s input now dg).1 := by
  unfold loopCycle
  exact digitInv_attractPhase _ now dg hdg
    (digitInv_idleFlush _ now (digitInv_foldl_drain input now (s, []) h))

/-- C10: in every state reachable from boot, every Tube State Store entry
has digit at most 9 — an out-of-range digit field never reaches the store
(it is stored as 0 with lit = false by the parser). -/
theorem C10_digit_invariant (s : Sys) (h : Reachable s) :
    ∀ i, (s.tubes i).digit ≤ 9 := by
  induction h with
  | boot dg hdg t0 =>
    intro i
    show ((setupState dg t0).tubes i).digit ≤ 9
    unfold setupState
    rw [attractFill_eq]
    exact Nat.lt_succ_iff.mp (hdg i)
  | step s input now dg hdg _ ih =>
    exact digitInv_loopCycle s input now dg hdg ih

theorem C10_digit_invariant_witness : ((s0.tubes 0).digit ≤ 9) :=
  C10_digit_invariant s0 (Reachable.boot (fun _ => 0) (by intro i; simp) 0) 0

end Nixie

namespace Nixie

lemma pal_inj : ∀ i j : Fin 7, pal i = pal j → i = j := by decide

lemma pal_le : ∀ i : Fin 7, (pal i).1 ≤ 255 ∧ (pal i).2.1 ≤ 255 ∧ (pal i).2.2 ≤ 255 := by decide

lemma sq_le_65025 {x c : Int} (hx0 : 0 ≤ x) (hx : x ≤ 255) (hc0 : 0 ≤ c) (hc : c ≤ 255) :
    (x - c) ^ 2 ≤ 65025 := by
  nlinarith [mul_nonneg (by linarith : (0:Int) ≤ 255 - (x - c))
    (by linarith : (0:Int) ≤ 255 + (x - c))]

lemma sqDist_nonneg (r g b : Nat) (i : Fin 7) : 0 ≤ sqDist r g b i := by
  unfold sqDist; positivity

lemma sqDist_eq_zero_iff (r g b : Nat) (i : Fin 7) :
    sqDist r g b i = 0 ↔ pal i = (r, g, b) := by
  constructor
  · intro hz
    unfold sqDist at hz
    have h1 := sq_nonneg ((r : Int) - ((pal i).1 : Nat))
    have h2 := sq_nonneg ((g : Int) - ((pal i).2.1 : Nat))
    have h3 := sq_nonneg ((b : Int) - ((pal i).2.2 : Nat))
    have e1 : ((r : Int) - ((pal i).1 : Nat)) ^ 2 = 0 := by linarith
    have e2 : ((g : Int) - ((pal i).2.1 : Nat)) ^ 2 = 0 := by linarith
    have e3 : ((b : Int) - ((pal i).2.2 : Nat)) ^ 2 = 0 := by linarith
    have f1 : ((pal i).1 : Int) = (r : Int) := by
      have := sq_eq_zero_iff.mp e1; linarith
    have f2 : ((pal i).2.1 : Int) = (g : Int) := by
      have := sq_eq_zero_iff.mp e2; linarith
    have f3 : ((pal i).2.2 : Int) = (b : Int) := by
      have := sq_eq_zero_iff.mp e3; linarith
    have g1 : (pal i).1 = r := by exact_mod_cast f1
    have g2 : (pal i).2.1 = g := by exact_mod_cast f2
    have g3 : (pal i).2.2 = b := by exact_mod_cast f3
    exact Prod.ext g1 (Prod.ext g2 g3)
  · intro hp
    unfold sqDist
    rw [hp]
    ring

lemma sqDist_lt_big (r g b : Nat) (hr : r ≤ 255) (hg : g ≤ 255) (hb : b ≤ 255) (i : Fin 7) :
    sqDist r g b i < 4294967295 := by
  obtain ⟨p1, p2, p3⟩ := pal_le i
  have e1 : ((r : Int) - ((pal i).1 : Nat)) ^ 2 ≤ 65025 :=
    sq_le_65025 (Int.natCast_nonneg r) (by exact_mod_cast hr)
      (Int.natCast_nonneg _) (by exact_mod_cast p1)
  have e2 : ((g : Int) - ((pal i).2.1 : Nat)) ^ 2 ≤ 65025 :=
    sq_le_65025 (Int.natCast_nonneg g) (by exact_mod_cast hg)
      (Int.natCast_nonneg _) (by exact_mod_cast p2)
  have e3 : ((b : Int) - ((pal i).2.2 : Nat)) ^ 2 ≤ 65025 :=
    sq_le_65025 (Int.natCast_nonneg b) (by exact_mod_cast hb)
      (Int.natCast_nonneg _) (by exact_mod_cast p3)
  unfold sqDist
  linarith

lemma minFold_spec (f : Fin 7 → Int) (l : List (Fin 7)) :
    ∀ d e,
      (l.foldl (minStep f) (d, e) = (d, e) ∧ ∀ i ∈ l, d ≤ f i) ∨
      (∃ l1 l2, l = l1 ++ (l.foldl (minStep f) (d, e)).2 :: l2 ∧
        f (l.foldl (minStep f) (d, e)).2 = (l.foldl (minStep f) (d, e)).1 ∧
        (l.foldl (minStep f) (d, e)).1 < d ∧
        (∀ i ∈ l1, (l.foldl (minStep f) (d, e)).1 < f i) ∧
        (∀ i ∈ l2, (l.foldl (minStep f) (d, e)).1 ≤ f i)) := by
  induction l with
  | nil => intro d e; exact Or.inl ⟨rfl, by simp⟩
  | cons a t ih =>
    intro d e
    rw [List.foldl_cons]
    by_cases hif : f a < d
    · have hstep : minStep f (d, e) a = (f a, a) := by simp [minStep, hif]
      rw [hstep]
      rcases ih (f a) a with ⟨heq, hall⟩ | ⟨l1, l2, hsplit, hfe, hlt, h1, h2⟩
      · right
        refine ⟨[], t, ?_, ?_, ?_, ?_, ?_⟩
        · simp [heq]
        · simp [heq]
        · simp [heq]; exact hif
        · intro i hi; simp at hi
        · intro i hi; simp [heq]; exact hall i hi
      · right
        refine ⟨a :: l1, l2, ?_, hfe, lt_trans hlt hif, ?_, h2⟩
        · rw [List.cons_append, ← hsplit]
        · intro i hi
          rcases List.mem_cons.mp hi with rfl | hi
          · exact hlt
          · exact h1 i hi
    · have hstep : minStep f (d, e) a = (d, e) := by simp [minStep, hif]
      rw [hstep]
      rcases ih d e with ⟨heq, hall⟩ | ⟨l1, l2, hsplit, hfe, hlt, h1, h2⟩
      · left
        refine ⟨heq, ?_⟩
        intro i hi
        rcases List.mem_cons.mp hi with rfl | hi
        · exact not_lt.mp hif
        · exact hall i hi
      · right
        refine ⟨a :: l1, l2, ?_, hfe, hlt, ?_, h2⟩
        · rw [List.cons_append, ← hsplit]
        · intro i hi
          rcases List.mem_cons.mp hi with rfl | hi
          · exact lt_of_lt_of_le hlt (not_lt.mp hif)
          · exact h1 i hi

end Nixie

namespace Nixie

lemma rgbToEnum_exact {r g b : Nat} {i : Fin 7} (h : exactIdx r g b = some i) :
    rgbToEnum r g b = i := by
  unfold rgbToEnum; rw [h]

lemma rgbToEnum_near {r g b : Nat} (h : exactIdx r g b = none) :
    rgbToEnum r g b = nearest r g b := by
  unfold rgbToEnum; rw [h]

/-- C4: the Color Quantizer always returns a palette member minimizing the
squared Euclidean distance; ties resolve to the lowest palette index; an
input equal to a palette entry yields exactly that entry. -/
theorem C4_quantizer (r g b : Nat) (hr : r ≤ 255) (hg : g ≤ 255) (hb : b ≤ 255) :
    (∀ j, sqDist r g b (rgbToEnum r g b) ≤ sqDist r g b j) ∧
    (∀ j, j < rgbToEnum r g b → sqDist r g b (rgbToEnum r g b) < sqDist r g b j) ∧
    (∀ k, pal k = (r, g, b) → rgbToEnum r g b = k) := by
  cases hex : exactIdx r g b with
  | some i =>
    rw [rgbToEnum_exact hex]
    have hp : pal i = (r, g, b) := by
      have hfind := List.find?_some hex
      simp only [Bool.and_eq_true, beq_iff_eq] at hfind
      exact Prod.ext hfind.1.1 (Prod.ext hfind.1.2 hfind.2)
    have hz : sqDist r g b i = 0 := (sqDist_eq_zero_iff r g b i).mpr hp
    refine ⟨?_, ?_, ?_⟩
    · intro j; rw [hz]; exact sqDist_nonneg r g b j
    · intro j hj
      rw [hz]
      rcases lt_or_eq_of_le (sqDist_nonneg r g b j) with h | h
      · exact h
      · exfalso
        have hpj : pal j = (r, g, b) := (sqDist_eq_zero_iff r g b j).mp h.symm
        have hji : j = i := pal_inj j i (hpj.trans hp.symm)
        subst hji
        exact lt_irrefl _ hj
    · intro k hk
      exact pal_inj i k (hp.trans hk.symm)
  | none =>
    rw [rgbToEnum_near hex]
    have hnone : ∀ j : Fin 7, pal j ≠ (r, g, b) := by
      intro j hj
      have hmem := List.find?_eq_none.mp hex j (List.mem_finRange j)
      simp only [Bool.and_eq_true, beq_iff_eq, not_and] at hmem
      exact hmem ⟨by rw [hj], by rw [hj]⟩ (by rw [hj])
    unfold nearest
    rcases minFold_spec (sqDist r g b) (List.finRange 7) 4294967295 0 with
      ⟨heq, hall⟩ | ⟨l1, l2, hsplit, hfe, hlt, h1, h2⟩
    · exfalso
      have h0 := hall 0 (List.mem_finRange 0)
      have hlt0 := sqDist_lt_big r g b hr hg hb 0
      linarith
    · refine ⟨?_, ?_, ?_⟩
      · intro j
        have hj7 : j ∈ List.finRange 7 := List.mem_finRange j
        rw [hsplit] at hj7
        rcases List.mem_append.mp hj7 with hj1 | hj2
        · rw [hfe]; exact le_of_lt (h1 j hj1)
        · rcases List.mem_cons.mp hj2 with rfl | hj2
          · exact le_refl _
          · rw [hfe]; exact h2 j hj2
      · intro j hj
        have hpw := List.pairwise_lt_finRange 7
        rw [hsplit, List.pairwise_append] at hpw
        obtain ⟨hpw1, hpw2, hcross⟩ := hpw
        have hj7 : j ∈ List.finRange 7 := List.mem_finRange j
        rw [hsplit] at hj7
        rcases List.mem_append.mp hj7 with hj1 | hj2
        · rw [hfe]; exact h1 j hj1
        · rcases List.mem_cons.mp hj2 with rfl | hj2
          · exact absurd hj (lt_irrefl _)
          · have hgt := (List.pairwise_cons.mp hpw2).1 j hj2
            exact absurd hj (not_lt.mpr (le_of_lt hgt))
      · intro k hk
        exact absurd hk (hnone k)

theorem C4_quantizer_witness :
    sqDist 10 20 30 (rgbToEnum 10 20 30) ≤ sqDist 10 20 30 3 :=
  (C4_quantizer 10 20 30 (by decide) (by decide) (by decide)).1 3

end Nixie
